import Mathlib

/-!
Verification of the macro-dashboard data-collection script (fetch_data.py).

The script is a sequence of ETL jobs sharing a few helpers.  This file gives a
shallow embedding of the pure core of those helpers and of the per-job
assembly logic, and proves the specified properties about them.

Modelling conventions, used throughout:

* Python floats are modelled as exact rationals (ℚ).  Python round(x, n)
  (round-half-to-even at n decimal digits) is modelled by pyRound below,
  acting exactly on ℚ.
* Day-level date strings "YYYY-MM-DD" are modelled structurally as a Date
  record (year, month, day); Python datetime.strptime corresponds to reading
  off the three components (it succeeds exactly on valid calendar dates), and
  the truncation d[:7] of such a string corresponds to the (year, month)
  projection.  Lexicographic order on the fixed-width strings corresponds to
  the numeric key dateKey.
* Python dicts built by dict(zip(keys, vals)) are modelled as association
  lists with a later-entry-wins lookup (dictLookup), which is Python dict
  semantics under duplicate keys.
* Python exceptions in the helpers under study are modelled with Except:
  an expression that raises is modelled as Except.error carrying the message.
* Loops that enumerate dates and index values positionally are modelled over
  List.zip dates values; for equal-length inputs (the stated contract of the
  helpers) this is exactly the behaviour of the Python loops.
-/

/- ──────────────────────────  Python rounding  ────────────────────────── -/

/-- Round a rational to the nearest integer, ties to even: the behaviour of
Python round() at integer granularity, acting on exact rationals. -/
def rhe (x : ℚ) : ℤ :=
  if x - ⌊x⌋ < 1/2 then ⌊x⌋
  else if 1/2 < x - ⌊x⌋ then ⌊x⌋ + 1
  else if ⌊x⌋ % 2 = 0 then ⌊x⌋ else ⌊x⌋ + 1

/-- Python round(x, n): round half to even at n decimal digits, modelled
exactly over ℚ. -/
def pyRound (x : ℚ) (n : ℕ) : ℚ := (rhe (x * 10 ^ n) : ℚ) / 10 ^ n

/-- rhe returns either the floor or the floor plus one. -/
theorem rhe_eq_floor_or (x : ℚ) : rhe x = ⌊x⌋ ∨ rhe x = ⌊x⌋ + 1 := by
  unfold rhe
  split
  · exact Or.inl rfl
  · split
    · exact Or.inr rfl
    · split
      · exact Or.inl rfl
      · exact Or.inr rfl

/-- Integer bounds pass through rhe. -/
theorem rhe_bounds {x : ℚ} {lo hi : ℤ} (h1 : (lo : ℚ) ≤ x) (h2 : x ≤ (hi : ℚ)) :
    lo ≤ rhe x ∧ rhe x ≤ hi := by
  have hlo : lo ≤ ⌊x⌋ := Int.le_floor.mpr h1
  have hhi : ⌊x⌋ ≤ hi := by
    have := Int.floor_le_floor (α := ℚ) h2
    simpa using this
  constructor
  · rcases rhe_eq_floor_or x with h | h <;> omega
  · unfold rhe
    split
    · exact hhi
    · have hx : 1/2 ≤ x - ⌊x⌋ := le_of_not_lt (by assumption)
      have hlt : ⌊x⌋ < hi := by
        by_contra hcon
        have : ⌊x⌋ = hi := le_antisymm hhi (le_of_not_lt hcon)
        subst this
        have hfl : x - ⌊x⌋ ≤ 0 := by
          have : x ≤ (⌊x⌋ : ℚ) := by exact_mod_cast h2
          linarith
        linarith
      split
      · omega
      · split
        · exact hhi
        · omega

/- ──────────────────────────  Dict lookup  ────────────────────────── -/

/-- Lookup in an association list with Python dict semantics: when the same
key occurs multiple times the later entry wins (dict(zip(ks, vs))). -/
def dictLookup {δ α : Type} [DecidableEq δ] : List (δ × α) → δ → Option α
  | [], _ => none
  | p :: rest, k =>
    match dictLookup rest k with
    | some v => some v
    | none => if p.1 = k then some p.2 else none

theorem dictLookup_isSome_iff {δ α : Type} [DecidableEq δ]
    (m : List (δ × α)) (k : δ) :
    (dictLookup m k).isSome ↔ k ∈ m.map Prod.fst := by
  induction m with
  | nil => simp [dictLookup]
  | cons p rest ih =>
    simp only [dictLookup, List.map_cons, List.mem_cons]
    cases h : dictLookup rest k with
    | some v =>
      simp only [Option.isSome_some, true_iff]
      right
      rw [← ih, h]
      rfl
    | none =>
      rw [h] at ih
      simp only [Option.isSome_none, Bool.false_eq_true, false_iff] at ih
      constructor
      · intro hs
        by_cases hk : p.1 = k
        · exact Or.inl hk.symm
        · simp [hk] at hs
      · rintro (hk | hk)
        · simp [hk]
        · exact absurd hk ih

theorem dictLookup_eq_none {δ α : Type} [DecidableEq δ]
    {m : List (δ × α)} {k : δ} (h : k ∉ m.map Prod.fst) :
    dictLookup m k = none := by
  cases hd : dictLookup m k with
  | none => rfl
  | some v =>
    exfalso
    apply h
    rw [← dictLookup_isSome_iff, hd]
    rfl

/-- When each key occurs at most once, the later-wins dict lookup agrees with
the first-match lookup. -/
theorem dictLookup_eq_find? {δ α : Type} [DecidableEq δ]
    (m : List (δ × α)) (hm : (m.map Prod.fst).Nodup) (k : δ) :
    dictLookup m k = (m.find? (fun p => decide (p.1 = k))).map Prod.snd := by
  induction m with
  | nil => simp [dictLookup]
  | cons p rest ih =>
    simp only [List.map_cons, List.nodup_cons] at hm
    obtain ⟨hp, hrest⟩ := hm
    by_cases hk : p.1 = k
    · subst hk
      have hnone : dictLookup rest p.1 = none := by
        apply dictLookup_eq_none
        exact hp
      simp [dictLookup, hnone, List.find?]
    · have := ih hrest
      simp only [dictLookup, List.find?, decide_eq_true_eq]
      rw [this]
      cases hfind : (rest.find? (fun q => decide (q.1 = k))) with
      | none => simp [hk, hfind]
      | some q => simp [hk, hfind]

theorem dictLookup_mem {δ α : Type} [DecidableEq δ]
    {m : List (δ × α)} {k : δ} {v : α} (h : dictLookup m k = some v) :
    (k, v) ∈ m := by
  induction m with
  | nil => simp [dictLookup] at h
  | cons p rest ih =>
    simp only [dictLookup] at h
    cases hd : dictLookup rest k with
    | some w =>
      rw [hd] at h
      injection h with h
      subst h
      exact List.mem_cons_of_mem _ (ih hd)
    | none =>
      rw [hd] at h
      by_cases hk : p.1 = k
      · simp only [hk, if_pos rfl] at h
        injection h with h
        have hp : p = (k, v) := by
          cases p
          simp_all
        rw [hp]
        exact List.mem_cons_self _ _
      · simp [hk] at h

/-- Lookup in a value-mapped association list. -/
theorem dictLookup_map_value {δ α β : Type} [DecidableEq δ]
    (f : α → β) (m : List (δ × α)) (k : δ) :
    dictLookup (m.map (fun p => (p.1, f p.2))) k = (dictLookup m k).map f := by
  induction m with
  | nil => simp [dictLookup]
  | cons p rest ih =>
    simp only [List.map_cons, dictLookup, ih]
    cases dictLookup rest k with
    | some v => simp
    | none =>
      by_cases hk : p.1 = k <;> simp [hk]

/- ──────────────────────────  Calendar dates  ────────────────────────── -/

/-- Structural model of a day-level date string "YYYY-MM-DD". -/
structure Date where
  year : ℕ
  month : ℕ
  day : ℕ
deriving DecidableEq, Repr

/-- Gregorian leap-year test, as in Python datetime. -/
def isLeap (y : ℕ) : Bool := y % 4 == 0 && (y % 100 != 0 || y % 400 == 0)

/-- Number of days of a month, as validated by Python datetime. -/
def daysInMonth (y m : ℕ) : ℕ :=
  if m = 2 then (if isLeap y then 29 else 28)
  else if m = 4 ∨ m = 6 ∨ m = 9 ∨ m = 11 then 30
  else 31

/-- A Date is valid when Python datetime.strptime(s, "%Y-%m-%d") accepts the
corresponding string: the datetime range restricts years to 1..9999. -/
def Date.valid (d : Date) : Prop :=
  1 ≤ d.year ∧ d.year ≤ 9999 ∧ 1 ≤ d.month ∧ d.month ≤ 12 ∧
    1 ≤ d.day ∧ d.day ≤ daysInMonth d.year d.month

instance (d : Date) : Decidable d.valid := by
  unfold Date.valid
  infer_instance

/-- Numeric key realising the lexicographic order of the fixed-width strings
"YYYY-MM-DD" (months and days are zero-padded two-digit fields). -/
def dateKey (d : Date) : ℕ := d.year * 10000 + d.month * 100 + d.day

/-- Model of dt.replace(year=dt.year - 1) on a parsed date dt: Python
validates the resulting calendar date and raises ValueError when it does not
exist (February 29 mapped into a non-leap year, or a year below the datetime
minimum).  The successful case is returned as some. -/
def replaceYearMinus1 (d : Date) : Option Date :=
  if 1 ≤ d.year - 1 ∧ d.day ≤ daysInMonth (d.year - 1) d.month then
    some ⟨d.year - 1, d.month, d.day⟩
  else none

/-- For a valid date that is not February 29 and whose year is at least 2,
the year-minus-one replacement succeeds. -/
theorem replaceYearMinus1_isSome {d : Date} (hv : d.valid) (hy : 2 ≤ d.year)
    (hfeb : ¬(d.month = 2 ∧ d.day = 29)) :
    replaceYearMinus1 d = some ⟨d.year - 1, d.month, d.day⟩ := by
  obtain ⟨h1, _, _, _, _, h6⟩ := hv
  unfold replaceYearMinus1
  rw [if_pos]
  refine ⟨by omega, ?_⟩
  unfold daysInMonth at h6 ⊢
  by_cases hm : d.month = 2
  · rw [hm] at h6 ⊢
    norm_num at h6 ⊢
    have hd28 : d.day ≤ 28 := by
      have hne : d.day ≠ 29 := fun hc => hfeb ⟨hm, hc⟩
      split at h6 <;> omega
    split <;> omega
  · rw [if_neg hm] at h6 ⊢
    exact h6

/- ──────────────────────  YoY derivation (calc_yoy_from_index)  ────────────────────── -/

/-- Loop body of calc_yoy_from_index: iterate over the (date, value) pairs
(the Python loop enumerates dates and reads values positionally; over
equal-length inputs that is the zip), looking the one-year-earlier date up in
the dict dv.  A February-29 date whose preceding year is not leap makes
dt.replace raise ValueError, which aborts the whole call: modelled by
Except.error. -/
def calcYoyGo (dv : List (Date × ℚ)) :
    List (Date × ℚ) → Except String (List (ℕ × ℕ) × List ℚ)
  | [] => .ok ([], [])
  | (d, v) :: rest =>
    match replaceYearMinus1 d with
    | none => .error "ValueError: day is out of range for month"
    | some pd =>
      match dictLookup dv pd with
      | some pv =>
        if pv ≠ 0 then
          (calcYoyGo dv rest).map
            (fun r => ((d.year, d.month) :: r.1,
                       pyRound ((v - pv) / pv * 100) 1 :: r.2))
        else calcYoyGo dv rest
      | none => calcYoyGo dv rest

/-- Model of calc_yoy_from_index(dates, values): builds the dict
date_val = dict(zip(dates, values)) and runs the loop.  The month label
d[:7] of an emitted date is modelled as its (year, month) projection. -/
def calc_yoy_from_index (dates : List Date) (values : List ℚ) :
    Except String (List (ℕ × ℕ) × List ℚ) :=
  calcYoyGo (dates.zip values) (dates.zip values)

/-- Modelled from the spec (for the refinement claims about YoY derivation):
for each index, if the calendar date one year earlier (same month/day, year
minus one) occurs in the input and the value there is nonzero, emit the
year-month label together with round(100 * (v - prior) / prior, 1); otherwise
skip the index. -/
def specYoyGo (full : List (Date × ℚ)) :
    List (Date × ℚ) → List (ℕ × ℕ) × List ℚ
  | [] => ([], [])
  | (d, v) :: rest =>
    let prior : Date := ⟨d.year - 1, d.month, d.day⟩
    match full.find? (fun p => decide (p.1 = prior)) with
    | some p =>
      if p.2 ≠ 0 then
        let r := specYoyGo full rest
        ((d.year, d.month) :: r.1, pyRound (100 * (v - p.2) / p.2) 1 :: r.2)
      else specYoyGo full rest
    | none => specYoyGo full rest

/-- Modelled from the spec: the emitted YoY pairs as described in §4.1. -/
def specYoy (dates : List Date) (values : List ℚ) : List (ℕ × ℕ) × List ℚ :=
  specYoyGo (dates.zip values) (dates.zip values)

/-- The two rounding arguments used by the code and by the spec coincide. -/
theorem yoy_formula_comm (v pv : ℚ) : (v - pv) / pv * 100 = 100 * (v - pv) / pv := by
  ring

/-- Core lemma: on inputs whose dates are pairwise distinct and admit the
year-minus-one replacement (no February 29, year at least 2), the code
computes exactly the spec value. -/
theorem calcYoyGo_eq_spec (dv : List (Date × ℚ))
    (hnd : (dv.map Prod.fst).Nodup)
    (rest : List (Date × ℚ))
    (hv : ∀ p ∈ rest, (replaceYearMinus1 p.1).isSome) :
    calcYoyGo dv rest = .ok (specYoyGo dv rest) := by
  induction rest with
  | nil => rfl
  | cons p rest ih =>
    obtain ⟨d, v⟩ := p
    have hd := hv (d, v) (List.mem_cons_self _ _)
    have hrest : ∀ q ∈ rest, (replaceYearMinus1 q.1).isSome :=
      fun q hq => hv q (List.mem_cons_of_mem _ hq)
    cases hrep : replaceYearMinus1 d with
    | none => rw [hrep] at hd; simp at hd
    | some pd =>
      have hpd : pd = ⟨d.year - 1, d.month, d.day⟩ := by
        unfold replaceYearMinus1 at hrep
        split at hrep
        · injection hrep with h
          exact h.symm
        · exact absurd hrep (by simp)
      simp only [calcYoyGo, specYoyGo, hrep]
      rw [dictLookup_eq_find? dv hnd pd, hpd]
      cases hfind : dv.find? (fun q => decide (q.1 = (⟨d.year - 1, d.month, d.day⟩ : Date))) with
      | none =>
        simp only [Option.map_none']
        exact ih hrest
      | some q =>
        simp only [Option.map_some']
        by_cases hq : q.2 ≠ 0
        · rw [if_pos hq, if_pos hq, ih hrest]
          simp only [Except.map]
          rw [yoy_formula_comm]
        · rw [if_neg hq, if_neg hq]
          exact ih hrest

/-- Specialisation to calc_yoy_from_index. -/
theorem calc_yoy_eq_spec (dates : List Date) (values : List ℚ)
    (hnd : dates.Nodup)
    (hv : ∀ d ∈ dates, (replaceYearMinus1 d).isSome) :
    calc_yoy_from_index dates values = .ok (specYoy dates values) := by
  unfold calc_yoy_from_index specYoy
  apply calcYoyGo_eq_spec
  · have hsub : ((dates.zip values).map Prod.fst).Sublist dates := by
      clear hv hnd
      induction dates generalizing values with
      | nil => simp
      | cons a as ih =>
        cases values with
        | nil => simp
        | cons b bs => simpa using (ih bs).cons₂ a
    exact hsub.nodup hnd
  · intro p hp
    exact hv p.1 (List.of_mem_zip hp).1

/- ──────────────────────  Multi-series aligner  ────────────────────── -/

/-- Sorted union of several date lists: sorted(set().union(...)), the shared
axis built by the aligning jobs (dates are comparable strings; here a generic
linearly ordered type). -/
def sortedUnion {δ : Type} [LinearOrder δ] [DecidableEq δ] (dss : List (List δ)) : List δ :=
  List.insertionSort (· ≤ ·) dss.flatten.dedup

theorem sortedUnion_sorted {δ : Type} [LinearOrder δ] [DecidableEq δ]
    (dss : List (List δ)) : (sortedUnion dss).Sorted (· < ·) := by
  apply List.Sorted.lt_of_le (List.sorted_insertionSort _ _)
  exact ((List.perm_insertionSort _ _).nodup_iff).mpr (List.nodup_dedup _)

theorem mem_sortedUnion {δ : Type} [LinearOrder δ] [DecidableEq δ]
    (dss : List (List δ)) (d : δ) :
    d ∈ sortedUnion dss ↔ ∃ l ∈ dss, d ∈ l := by
  rw [sortedUnion, (List.perm_insertionSort _ _).mem_iff, List.mem_dedup,
    List.mem_flatten]

/-- Forward-fill loop of the aligning jobs (exactly the pmi/unemployment
form, carrying the mapping value unchanged): walk the axis keeping a running
last value, replace it by the mapping value whenever the date is a key of the
mapping, and always append the running value. -/
def fillLoop {δ : Type} [DecidableEq δ] (m : List (δ × ℚ)) : ℚ → List δ → List ℚ
  | _, [] => []
  | last, d :: ds =>
    match dictLookup m d with
    | some v => v :: fillLoop m v ds
    | none => last :: fillLoop m last ds

/-- Forward-fill loop of fetch_rates, which stores round(value, 2) into the
running last value when the date is present. -/
def ratesFillLoop {δ : Type} [DecidableEq δ] (m : List (δ × ℚ)) : ℚ → List δ → List ℚ
  | _, [] => []
  | last, d :: ds =>
    match dictLookup m d with
    | some v => pyRound v 2 :: ratesFillLoop m (pyRound v 2) ds
    | none => last :: ratesFillLoop m last ds

theorem ratesFillLoop_eq_fillLoop {δ : Type} [DecidableEq δ]
    (m : List (δ × ℚ)) (last : ℚ) (axis : List δ) :
    ratesFillLoop m last axis
      = fillLoop (m.map (fun p => (p.1, pyRound p.2 2))) last axis := by
  induction axis generalizing last with
  | nil => rfl
  | cons d ds ih =>
    have hmv := dictLookup_map_value (fun v => pyRound v 2) m d
    cases hl : dictLookup m d with
    | some v =>
      rw [hl] at hmv
      simp only [ratesFillLoop, fillLoop, hl, hmv, Option.map_some', ih]
    | none =>
      rw [hl] at hmv
      simp only [ratesFillLoop, fillLoop, hl, hmv, Option.map_none', ih]

theorem fillLoop_length {δ : Type} [DecidableEq δ]
    (m : List (δ × ℚ)) (last : ℚ) (axis : List δ) :
    (fillLoop m last axis).length = axis.length := by
  induction axis generalizing last with
  | nil => rfl
  | cons d ds ih =>
    simp only [fillLoop]
    cases dictLookup m d with
    | some v => simp [ih]
    | none => simp [ih]

/-- The running state of the forward fill after consuming a prefix of the
axis. -/
def stepFold {δ : Type} [DecidableEq δ] (m : List (δ × ℚ)) (last : ℚ)
    (pre : List δ) : ℚ :=
  pre.foldl (fun acc d => (dictLookup m d).getD acc) last

theorem stepFold_nil {δ : Type} [DecidableEq δ] (m : List (δ × ℚ)) (last : ℚ) :
    stepFold m last [] = last := rfl

theorem stepFold_cons {δ : Type} [DecidableEq δ] (m : List (δ × ℚ)) (last : ℚ)
    (d : δ) (ds : List δ) :
    stepFold m last (d :: ds) = stepFold m ((dictLookup m d).getD last) ds := rfl

theorem stepFold_concat {δ : Type} [DecidableEq δ] (m : List (δ × ℚ)) (last : ℚ)
    (pre : List δ) (e : δ) :
    stepFold m last (pre ++ [e]) = (dictLookup m e).getD (stepFold m last pre) := by
  simp [stepFold, List.foldl_append]

/-- Each emitted fill value is the state after consuming the corresponding
prefix of the axis. -/
theorem fillLoop_getD_eq_stepFold {δ : Type} [DecidableEq δ]
    (m : List (δ × ℚ)) :
    ∀ (axis : List δ) (last : ℚ) (i : ℕ), i < axis.length →
      (fillLoop m last axis).getD i 0 = stepFold m last (axis.take (i + 1)) := by
  intro axis
  induction axis with
  | nil =>
    intro last i hf
    simp at hf
  | cons d ds ih =>
    intro last i hf
    cases hl : dictLookup m d with
    | some v =>
      simp only [fillLoop, hl]
      cases i with
      | zero =>
        simp only [List.getD_cons_zero, List.take_succ_cons, List.take_zero,
          stepFold_cons, stepFold_nil, hl]
        rfl
      | succ j =>
        simp only [List.getD_cons_succ]
        rw [ih v j (by simpa using hf), List.take_succ_cons, stepFold_cons, hl]
        rfl
    | none =>
      simp only [fillLoop, hl]
      cases i with
      | zero =>
        simp only [List.getD_cons_zero, List.take_succ_cons, List.take_zero,
          stepFold_cons, stepFold_nil, hl]
        rfl
      | succ j =>
        simp only [List.getD_cons_succ]
        rw [ih last j (by simpa using hf), List.take_succ_cons, stepFold_cons, hl]
        rfl

/-- Modelled from the spec (for the aligner refinement claim): the most
recent observation of the mapping at or before the given date, or the
default when no observation is at or before it. -/
def mostRecentAtOrBefore {δ : Type} [LinearOrder δ] [DecidableEq δ]
    (m : List (δ × ℚ)) (default : ℚ) (d : δ) : ℚ :=
  match ((m.map Prod.fst).filter (fun k => decide (k ≤ d))).maximum with
  | none => default
  | some k => (dictLookup m k).getD default

theorem mostRecentAtOrBefore_of_mem {δ : Type} [LinearOrder δ] [DecidableEq δ]
    (m : List (δ × ℚ)) (default : ℚ) (e : δ) (he : e ∈ m.map Prod.fst) :
    mostRecentAtOrBefore m default e = (dictLookup m e).getD default := by
  unfold mostRecentAtOrBefore
  have hmax : ((m.map Prod.fst).filter (fun k => decide (k ≤ e))).maximum = (e : WithBot δ) := by
    rw [List.maximum_eq_coe_iff]
    constructor
    · rw [List.mem_filter]
      exact ⟨he, by simp⟩
    · intro a ha
      rw [List.mem_filter] at ha
      simpa using ha.2
  rw [hmax]

/-- On a strictly sorted prefix that contains every mapping key at or below
its last element, the running fill state equals the most recent observation
at or before that last element. -/
theorem stepFold_eq_mostRecent {δ : Type} [LinearOrder δ] [DecidableEq δ]
    (m : List (δ × ℚ)) (default : ℚ) :
    ∀ (pre : List δ) (e : δ),
      (pre ++ [e]).Sorted (· < ·) →
      (∀ k ∈ m.map Prod.fst, k ≤ e → k ∈ pre ++ [e]) →
      stepFold m default (pre ++ [e]) = mostRecentAtOrBefore m default e := by
  intro pre
  induction pre using List.reverseRecOn with
  | nil =>
    intro e _ hcl
    rw [List.nil_append, stepFold_cons, stepFold_nil]
    by_cases he : e ∈ m.map Prod.fst
    · rw [mostRecentAtOrBefore_of_mem m default e he]
    · have hnone : dictLookup m e = none := dictLookup_eq_none he
      rw [hnone]
      unfold mostRecentAtOrBefore
      have hemp : (m.map Prod.fst).filter (fun k => decide (k ≤ e)) = [] := by
        rw [List.filter_eq_nil_iff]
        intro k hk
        simp only [decide_eq_true_eq]
        intro hke
        have hmem := hcl k hk hke
        simp only [List.nil_append, List.mem_singleton] at hmem
        subst hmem
        exact absurd hk he
      rw [hemp, List.maximum_nil]
      rfl
  | append_singleton ps e₂ ih =>
    intro e hsort hcl
    rw [stepFold_concat]
    by_cases he : e ∈ m.map Prod.fst
    · rw [mostRecentAtOrBefore_of_mem m default e he]
      cases hl : dictLookup m e with
      | some v => rfl
      | none =>
        exfalso
        rw [← dictLookup_isSome_iff, hl] at he
        simp at he
    · have hnone : dictLookup m e = none := dictLookup_eq_none he
      rw [hnone, Option.getD_none]
      have hsort2 : ((ps ++ [e₂]) ++ [e]).Pairwise (· < ·) := hsort
      have hbelow : ∀ x ∈ ps ++ [e₂], x < e := by
        intro x hx
        have := (List.pairwise_append.mp hsort2).2.2
        exact this x hx e (List.mem_singleton_self e)
      have he₂e : e₂ < e := hbelow e₂ (by simp)
      have hcl2 : ∀ k ∈ m.map Prod.fst, k ≤ e₂ → k ∈ ps ++ [e₂] := by
        intro k hk hke₂
        have hke : k ≤ e := le_of_lt (lt_of_le_of_lt hke₂ he₂e)
        rcases List.mem_append.mp (hcl k hk hke) with hmem | hmem
        · exact hmem
        · exfalso
          rw [List.mem_singleton] at hmem
          subst hmem
          exact he hk
      have hsort1 : (ps ++ [e₂]).Sorted (· < ·) :=
        (List.pairwise_append.mp hsort2).1
      rw [ih e₂ hsort1 hcl2]
      unfold mostRecentAtOrBefore
      have hfe : (m.map Prod.fst).filter (fun k => decide (k ≤ e))
          = (m.map Prod.fst).filter (fun k => decide (k ≤ e₂)) := by
        apply List.filter_congr
        intro k hk
        simp only [decide_eq_decide]
        constructor
        · intro hke
          rcases List.mem_append.mp (hcl k hk hke) with hmem | hmem
          · rcases List.mem_append.mp hmem with hps | hsing
            · exact le_of_lt ((List.pairwise_append.mp hsort1).2.2 k hps e₂
                (List.mem_singleton_self e₂))
            · rw [List.mem_singleton] at hsing
              exact le_of_eq hsing
          · exfalso
            rw [List.mem_singleton] at hmem
            subst hmem
            exact he hk
        · intro hke₂
          exact hke₂.trans (le_of_lt he₂e)
      rw [hfe]

/-- The forward fill over a strictly sorted axis containing all mapping keys
emits, at every axis position, the most recent observation at or before that
axis date (or the default when none precedes it). -/
theorem fillLoop_eq_map_mostRecent {δ : Type} [LinearOrder δ] [DecidableEq δ]
    (m : List (δ × ℚ)) (default : ℚ) (axis : List δ)
    (hsort : axis.Sorted (· < ·))
    (hkeys : ∀ k ∈ m.map Prod.fst, k ∈ axis) :
    fillLoop m default axis = axis.map (mostRecentAtOrBefore m default) := by
  apply List.ext_get
  · rw [fillLoop_length, List.length_map]
  intro n h1 h2
  have hn : n < axis.length := by
    have := fillLoop_length m default axis
    omega
  have hgetD : (fillLoop m default axis).get ⟨n, h1⟩
      = (fillLoop m default axis).getD n 0 := by
    rw [List.getD_eq_getElem?_getD, List.getElem?_eq_getElem h1, List.get_eq_getElem]
    rfl
  rw [hgetD, fillLoop_getD_eq_stepFold m axis default n hn]
  have htake : axis.take (n + 1) = axis.take n ++ [axis.get ⟨n, hn⟩] := by
    rw [List.take_succ, List.getElem?_eq_getElem hn]
    rfl
  have hs : (axis.take n ++ [axis.get ⟨n, hn⟩]).Sorted (· < ·) := by
    rw [← htake]
    exact List.Pairwise.sublist (List.take_sublist _ _) hsort
  have hc : ∀ k ∈ m.map Prod.fst, k ≤ axis.get ⟨n, hn⟩ →
      k ∈ axis.take n ++ [axis.get ⟨n, hn⟩] := by
    intro k hk hkle
    rw [← htake]
    obtain ⟨j, hj, hjk⟩ := List.mem_iff_getElem.mp (hkeys k hk)
    by_cases hcase : j ≤ n
    · have hb : j < (axis.take (n + 1)).length := by
        rw [List.length_take]
        omega
      have hget : (axis.take (n + 1)).get ⟨j, hb⟩ = k := by
        rw [List.get_eq_getElem, List.getElem_take]
        exact hjk
      rw [← hget]
      exact List.get_mem _ _ _
    · exfalso
      have hlt : (⟨n, hn⟩ : Fin axis.length) < ⟨j, hj⟩ := by
        simp only [Fin.mk_lt_mk]
        omega
      have hrel := hsort.rel_get_of_lt hlt
      rw [List.get_eq_getElem axis ⟨j, hj⟩] at hrel
      simp only at hrel
      rw [hjk] at hrel
      exact absurd hkle (not_le.mpr hrel)
  rw [htake, stepFold_eq_mostRecent m default _ _ hs hc]
  simp only [List.get_eq_getElem, List.getElem_map]

/-- Alignment as performed by fetch_pmi / fetch_unemployment (lines 365-373):
axis = sorted(set union of all date lists), then per-name forward fill
carrying the mapping value unchanged. -/
def alignAll {δ : Type} [LinearOrder δ] [DecidableEq δ]
    (series : List (String × List (δ × ℚ))) (default : ℚ) :
    List δ × List (String × List ℚ) :=
  let axis := sortedUnion (series.map (fun p => p.2.map Prod.fst))
  (axis, series.map (fun p => (p.1, fillLoop p.2 default axis)))

/-- Alignment as performed by fetch_rates (lines 267-275): identical except
that the carried value is round(value, 2) at each present date. -/
def alignAllRates {δ : Type} [LinearOrder δ] [DecidableEq δ]
    (series : List (String × List (δ × ℚ))) (default : ℚ) :
    List δ × List (String × List ℚ) :=
  let axis := sortedUnion (series.map (fun p => p.2.map Prod.fst))
  (axis, series.map (fun p => (p.1, ratesFillLoop p.2 default axis)))

/- ──────────────────────  Yield-curve classification  ────────────────────── -/

/-- The spread_status helper of fetch_yield_curve (lines 188-191). -/
def spread_status (s : ℚ) : String :=
  if s < -(1/10) then "INVERTED"
  else if s < 1/10 then "FLAT"
  else "NORMAL"

/- ──────────────────────  Summary statistics of the assemblers  ────────────────────── -/

/-- Python truthiness of an optional float: None and 0.0 are falsy. -/
def pyTruthy (o : Option ℚ) : Bool :=
  match o with
  | none => false
  | some x => decide (x ≠ 0)

/-- The local variable current of the rates job (line 257):
v[-1] if v else 0.  This pre-rounding local feeds the prev_change
computation at line 262; the current FIELD the job emits (line 261) is its
rounding, ratesCurrentField below. -/
def ratesCurrent (v : List ℚ) : ℚ := (v.getLast?).getD 0

/-- The "current" field emitted by fetch_rates (line 261):
round(current, 2) applied to the line-257 local. -/
def ratesCurrentField (v : List ℚ) : ℚ := pyRound (ratesCurrent v) 2

/-- The prev value of the rates job (line 258): v[-2] if len(v) >= 2 else
current. -/
def ratesPrev (v : List ℚ) : ℚ :=
  if 2 ≤ v.length then (v.getD (v.length - 2) 0) else ratesCurrent v

/-- The prev_change emitted by fetch_rates (line 262):
round(current - prev, 2), unconditionally. -/
def ratesPrevChange (v : List ℚ) : ℚ := pyRound (ratesCurrent v - ratesPrev v) 2

/-- The current value of the CPI/PPI jobs (line 457): the last series element,
or Python None when the series is empty, modelled as an Option. -/
def cpiCurrent (s : List ℚ) : Option ℚ := s.getLast?

/-- The prev value of the CPI/PPI jobs (line 459): second-to-last element if
the series has at least two points, else the current value. -/
def cpiPrev (s : List ℚ) : Option ℚ :=
  if 2 ≤ s.length then s.get? (s.length - 2) else cpiCurrent s

/-- The prev_change emitted by fetch_cpi / fetch_ppi (line 467):
round(current - prev, 1) if current and prev else 0 — Python truthiness, so a
zero (or missing) endpoint forces the 0 branch. -/
def cpiPrevChange (s : List ℚ) : ℚ :=
  if pyTruthy (cpiCurrent s) && pyTruthy (cpiPrev s) then
    pyRound ((cpiCurrent s).getD 0 - (cpiPrev s).getD 0) 1
  else 0

/- ──────────────────────  Global M2 job  ────────────────────── -/

/-- Unit conversion of fetch_m2 (line 111):
vals = [round(x / div, 2) if div > 1 else round(x, 2) for x in v]. -/
def m2Vals (div : ℚ) (v : List ℚ) : List ℚ :=
  v.map (fun x => if 1 < div then pyRound (x / div) 2 else pyRound x 2)

/-- The per-country summary yoy_pct of fetch_m2 (line 112):
round(((vals[-1] - vals[-13]) / vals[-13]) * 100, 1) if len(vals) > 13 else 0.
The division is Python float division, which raises ZeroDivisionError when
vals[-13] is zero; that case is modelled as Except.error. -/
def m2CountryYoy (vals : List ℚ) : Except String ℚ :=
  if 13 < vals.length then
    let denom := vals.getD (vals.length - 13) 0
    if denom = 0 then .error "ZeroDivisionError: float division by zero"
    else .ok (pyRound ((vals.getD (vals.length - 1) 0 - denom) / denom * 100) 1)
  else .ok 0

/- ──────────────────────  PMI job  ────────────────────── -/

/-- The per-observation PMI proxy transform of fetch_pmi (line 351):
round(max(30, min(65, (x - 100) * 5 + 50)), 1). -/
def pmiTransform (x : ℚ) : ℚ :=
  pyRound (max 30 (min 65 ((x - 100) * 5 + 50))) 1

/- ──────────────────────  Driver and entry point  ────────────────────── -/

/-- The names of the twelve jobs of the driver task list (lines 640-653). -/
def taskNames : List String :=
  ["Global M2", "Fed Balance Sheet", "Yield Curve", "NFCI",
   "Interest Rates", "Debt/GDP", "PMI", "Unemployment",
   "US CPI", "US PPI", "CPI Components", "Inflation Expectations"]

/-- The guidance printed by main when the credential is missing
(lines 636-637). -/
def guidanceLines : List String :=
  ["❌ FRED_API_KEY 환경변수를 설정해주세요.",
   "   https://fred.stlouisfed.org/docs/api/api_key.html 에서 무료 발급"]

/-- Observable outcome of a run of main: the guidance lines printed by the
missing-credential branch, and which jobs were executed. -/
structure MainRun where
  printed : List String
  executed : List String
deriving DecidableEq, Repr

/-- Control-flow model of main (lines 630-659): FRED_KEY is read from the
environment with default "" (line 18); if it is empty (Python falsy), the
guidance is printed and main returns before the task loop; otherwise every
task in the list runs. -/
def mainRun (env : String → Option String) : MainRun :=
  let fredKey := (env "FRED_API_KEY").getD ""
  if fredKey = "" then { printed := guidanceLines, executed := [] }
  else { printed := [], executed := taskNames }

/-- Driver loop model (lines 655-659): each task body either returns
normally or raises, modelled by an Except value; the loop runs tasks in
order inside try/except, recording for each its name and, when it failed,
the logged error. -/
def driverTrace : List (String × Except String Unit) → List (String × Option String)
  | [] => []
  | (n, .ok _) :: rest => (n, none) :: driverTrace rest
  | (n, .error e) :: rest => (n, some e) :: driverTrace rest

/- ══════════════════════════  Claim theorems  ══════════════════════════ -/

/-- Claim C5: for every spread value s, spread_status returns "INVERTED" iff
s < -0.1, "FLAT" iff -0.1 ≤ s < 0.1 and "NORMAL" iff s ≥ 0.1; in particular
-0.15 is INVERTED, 0.05 is FLAT and 0.5 is NORMAL. -/
theorem claim_C5_spread_status :
    (∀ s : ℚ,
      (spread_status s = "INVERTED" ↔ s < -(1/10)) ∧
      (spread_status s = "FLAT" ↔ (-(1/10) ≤ s ∧ s < 1/10)) ∧
      (spread_status s = "NORMAL" ↔ 1/10 ≤ s)) ∧
    spread_status (-(15/100)) = "INVERTED" ∧
    spread_status (5/100) = "FLAT" ∧
    spread_status (1/2) = "NORMAL" := by
  refine ⟨?_, ?_, ?_, ?_⟩
  · intro s
    by_cases h1 : s < -(1/10)
    · rw [spread_status, if_pos h1]
      refine ⟨⟨fun _ => h1, fun _ => rfl⟩, ?_, ?_⟩
      · constructor
        · intro he
          exact absurd he (by decide)
        · intro hc
          exact absurd h1 (not_lt.mpr hc.1)
      · constructor
        · intro he
          exact absurd he (by decide)
        · intro hc
          exact absurd h1 (not_lt.mpr (by linarith))
    · by_cases h2 : s < 1/10
      · rw [spread_status, if_neg h1, if_pos h2]
        refine ⟨?_, ⟨fun _ => ⟨not_lt.mp h1, h2⟩, fun _ => rfl⟩, ?_⟩
        · constructor
          · intro he
            exact absurd he (by decide)
          · intro hc
            exact absurd hc h1
        · constructor
          · intro he
            exact absurd he (by decide)
          · intro hc
            exact absurd h2 (not_lt.mpr hc)
      · rw [spread_status, if_neg h1, if_neg h2]
        refine ⟨?_, ?_, ⟨fun _ => not_lt.mp h2, fun _ => rfl⟩⟩
        · constructor
          · intro he
            exact absurd he (by decide)
          · intro hc
            exact absurd (lt_trans hc (by norm_num)) h2
        · constructor
          · intro he
            exact absurd he (by decide)
          · intro hc
            exact absurd hc.2 h2
  · rw [spread_status, if_pos (by norm_num)]
  · rw [spread_status, if_neg (by norm_num), if_pos (by norm_num)]
  · rw [spread_status, if_neg (by norm_num), if_neg (by norm_num)]

/-- Claim C7: when the FRED_API_KEY credential is absent or empty, main
prints the guidance and returns before any of the twelve jobs executes. -/
theorem claim_C7_missing_credential (env : String → Option String)
    (h : env "FRED_API_KEY" = none ∨ env "FRED_API_KEY" = some "") :
    (mainRun env).executed = [] ∧ (mainRun env).printed = guidanceLines ∧
      taskNames.length = 12 := by
  have hkey : (env "FRED_API_KEY").getD "" = "" := by
    rcases h with h | h <;> rw [h] <;> rfl
  rw [mainRun]
  simp only [hkey, if_pos]
  exact ⟨trivial, trivial, rfl⟩

/-- Witness for claim C7 at the concrete empty environment. -/
theorem claim_C7_witness :
    (mainRun (fun _ => none)).executed = [] ∧
      (mainRun (fun _ => none)).printed = guidanceLines ∧
      taskNames.length = 12 :=
  claim_C7_missing_credential (fun _ => none) (Or.inl rfl)

/-- Claim C8: the driver loop catches and logs every job failure and always
continues: the attempted-job trace lists every task in order whatever the
outcomes, and a failing task in any position is logged while the remaining
tasks still produce exactly their own trace. -/
theorem claim_C8_driver :
    (∀ tasks : List (String × Except String Unit),
      (driverTrace tasks).map Prod.fst = tasks.map Prod.fst) ∧
    (∀ (pre post : List (String × Except String Unit)) (n e : String),
      driverTrace (pre ++ (n, .error e) :: post)
        = driverTrace pre ++ (n, some e) :: driverTrace post) := by
  constructor
  · intro tasks
    induction tasks with
    | nil => rfl
    | cons t rest ih =>
      obtain ⟨n, a⟩ := t
      cases a <;> simp [driverTrace, ih]
  · intro pre post n e
    induction pre with
    | nil => rfl
    | cons t rest ih =>
      obtain ⟨n2, a⟩ := t
      cases a <;> simp [driverTrace, ih]

/-- Claim C9: the Global M2 per-country summary yoy_pct is positional:
round(((vals[-1] - vals[-13]) / vals[-13]) * 100, 1) when more than 13 values
were fetched, 0 otherwise, and the division is unguarded, so a series whose
13th-from-last value is 0 raises ZeroDivisionError (here: one produced by the
m2Vals unit conversion itself). -/
theorem claim_C9_m2_yoy :
    (∀ vals : List ℚ, 13 < vals.length → vals.getD (vals.length - 13) 0 ≠ 0 →
      m2CountryYoy vals = .ok (pyRound ((vals.getD (vals.length - 1) 0
        - vals.getD (vals.length - 13) 0)
        / vals.getD (vals.length - 13) 0 * 100) 1)) ∧
    (∀ vals : List ℚ, vals.length ≤ 13 → m2CountryYoy vals = .ok 0) ∧
    m2CountryYoy (m2Vals 1 [1, 0, 1, 1, 1, 1, 1, 1, 1, 1, 1, 1, 1, 1])
      = .error "ZeroDivisionError: float division by zero" := by
  refine ⟨?_, ?_, ?_⟩
  · intro vals h13 hnz
    rw [m2CountryYoy, if_pos h13, if_neg hnz]
  · intro vals hle
    rw [m2CountryYoy, if_neg (by omega)]
  · with_unfolding_all rfl

/-- Lower and upper decimal bounds pass through Python round(x, 1). -/
theorem pyRound1_bounds {y : ℚ} {lo hi : ℤ} (h1 : (lo : ℚ) ≤ y) (h2 : y ≤ (hi : ℚ)) :
    (lo : ℚ) ≤ pyRound y 1 ∧ pyRound y 1 ≤ (hi : ℚ) := by
  have hb := @rhe_bounds (y * 10 ^ (1 : ℕ)) (lo * 10) (hi * 10)
    (by push_cast; norm_num; linarith) (by push_cast; norm_num; linarith)
  obtain ⟨hb1, hb2⟩ := hb
  have hc1 : ((lo * 10 : ℤ) : ℚ) ≤ (rhe (y * 10 ^ (1 : ℕ)) : ℚ) := by exact_mod_cast hb1
  have hc2 : ((rhe (y * 10 ^ (1 : ℕ)) : ℚ)) ≤ ((hi * 10 : ℤ) : ℚ) := by exact_mod_cast hb2
  push_cast at hc1 hc2
  rw [pyRound]
  norm_num at hc1 hc2 ⊢
  constructor <;> linarith

/-- Every value a forward fill can emit is either the initial value or a
mapping value. -/
theorem fillLoop_mem_bound {δ : Type} [DecidableEq δ] (P : ℚ → Prop)
    (m : List (δ × ℚ)) (hm : ∀ p ∈ m, P p.2) :
    ∀ (axis : List δ) (last : ℚ), P last → ∀ v ∈ fillLoop m last axis, P v := by
  intro axis
  induction axis with
  | nil =>
    intro last _ v hv
    simp [fillLoop] at hv
  | cons d ds ih =>
    intro last hlast v hv
    cases hl : dictLookup m d with
    | some w =>
      simp only [fillLoop, hl] at hv
      have hw : P w := hm (d, w) (dictLookup_mem hl)
      rcases List.mem_cons.mp hv with hv1 | hv2
      · rw [hv1]
        exact hw
      · exact ih w hw v hv2
    | none =>
      simp only [fillLoop, hl] at hv
      rcases List.mem_cons.mp hv with hv1 | hv2
      · rw [hv1]
        exact hlast
      · exact ih last hlast v hv2

/-- Claim C10: every observation transform of the PMI job lands in [30, 65],
the forward-fill default 50 lies in [30, 65], and hence every value of every
aligned per-country PMI series lies in [30, 65]. -/
theorem claim_C10_pmi_bounds :
    (∀ x : ℚ, 30 ≤ pmiTransform x ∧ pmiTransform x ≤ 65) ∧
    ((30 : ℚ) ≤ 50 ∧ (50 : ℚ) ≤ 65) ∧
    (∀ (raw : List (Date × ℚ)) (axis : List Date) (v : ℚ),
      v ∈ fillLoop (raw.map (fun p => (p.1, pmiTransform p.2))) 50 axis →
      30 ≤ v ∧ v ≤ 65) := by
  have htrans : ∀ x : ℚ, 30 ≤ pmiTransform x ∧ pmiTransform x ≤ 65 := by
    intro x
    have hlow : (30 : ℚ) ≤ max 30 (min 65 ((x - 100) * 5 + 50)) := le_max_left _ _
    have hhigh : max 30 (min 65 ((x - 100) * 5 + 50)) ≤ (65 : ℚ) :=
      max_le (by norm_num) (min_le_left _ _)
    have := @pyRound1_bounds (max 30 (min 65 ((x - 100) * 5 + 50))) 30 65
      (by exact_mod_cast hlow) (by exact_mod_cast hhigh)
    rw [pmiTransform]
    exact_mod_cast this
  refine ⟨htrans, ⟨by norm_num, by norm_num⟩, ?_⟩
  intro raw axis v hv
  refine fillLoop_mem_bound (fun v => 30 ≤ v ∧ v ≤ 65) _ ?_ axis 50 (by norm_num) v hv
  intro p hp
  rw [List.mem_map] at hp
  obtain ⟨q, _, hq⟩ := hp
  rw [← hq]
  exact htrans q.2

/-- Python round of zero is zero at every digit count. -/
theorem pyRound_zero (n : ℕ) : pyRound 0 n = 0 := by
  rw [pyRound, rhe]
  norm_num

/-- Claim C6 counterexample: on the series [5, 0] the CPI/PPI assembler
emits prev_change 0 although the last element minus the second-to-last is
round(0 - 5, 1) = -5 ≠ 0: the truthiness guard discards a zero endpoint. -/
theorem claim_C6_counterexample :
    cpiPrevChange [5, 0] = 0 ∧ pyRound ((0 : ℚ) - 5) 1 = -5 ∧ ((-5 : ℚ) ≠ 0) := by
  refine ⟨?_, ?_, by norm_num⟩
  · with_unfolding_all rfl
  · with_unfolding_all rfl

/-- Claim C6, amended: the emitted current is the last element in the
CPI/PPI jobs, but in the rates job it is round(last, 2) — for the last
element 1/8 = 0.125 the job emits 0.12, not 0.125 — and 0 for an empty
series.  prev_change is round(last - second-to-last) of the pre-rounding
locals when there are at least two points — unconditionally (at 2 decimals)
in the rates job, but in the CPI/PPI jobs (at 1 decimal) only when both
endpoints are nonzero, the emitted value being 0 whenever either endpoint
is zero or missing; with fewer than two points prev_change is 0
everywhere. -/
theorem claim_C6_amended :
    (∀ v : List ℚ, 2 ≤ v.length →
      ratesPrevChange v
        = pyRound (v.getD (v.length - 1) 0 - v.getD (v.length - 2) 0) 2) ∧
    (∀ v : List ℚ, v.length < 2 → ratesPrevChange v = 0) ∧
    (∀ (s : List ℚ) (c p : ℚ), s.getLast? = some c → 2 ≤ s.length →
      s.get? (s.length - 2) = some p →
      cpiPrevChange s = if c ≠ 0 ∧ p ≠ 0 then pyRound (c - p) 1 else 0) ∧
    (∀ s : List ℚ, s.length < 2 → cpiPrevChange s = 0) ∧
    (∀ (v : List ℚ) (c : ℚ), v.getLast? = some c → ratesCurrentField v = pyRound c 2) ∧
    (ratesCurrentField [] = 0) ∧
    (ratesCurrentField [1/8] = 3/25 ∧ ((1 : ℚ)/8 ≠ 3/25)) ∧
    (∀ s : List ℚ, cpiCurrent s = s.getLast?) := by
  refine ⟨?_, ?_, ?_, ?_, ?_, ?_, ?_, fun _ => rfl⟩
  · intro v hlen
    simp only [ratesPrevChange, ratesPrev, if_pos hlen, ratesCurrent,
      List.getLast?_eq_getElem?, List.getD_eq_getElem?_getD]
  · intro v hlen
    rw [ratesPrevChange, ratesPrev, if_neg (by omega), sub_self, pyRound_zero]
  · intro s c p hc hlen hp
    rw [cpiPrevChange, cpiPrev, if_pos hlen, cpiCurrent, hc, hp]
    by_cases hcp : c ≠ 0 ∧ p ≠ 0
    · rw [if_pos hcp]
      have hbc : pyTruthy (some c) = true := by
        simp [pyTruthy, hcp.1]
      have hbp : pyTruthy (some p) = true := by
        simp [pyTruthy, hcp.2]
      rw [hbc, hbp]
      rfl
    · rw [if_neg hcp]
      rcases not_and_or.mp hcp with h0 | h0
      · have hc0 : c = 0 := not_not.mp h0
        have hbc : pyTruthy (some c) = false := by
          rw [hc0]
          simp [pyTruthy]
        rw [hbc]
        rfl
      · have hp0 : p = 0 := not_not.mp h0
        have hbp : pyTruthy (some p) = false := by
          rw [hp0]
          simp [pyTruthy]
        rw [hbp, Bool.and_false]
        rfl
  · intro s hlen
    match s, hlen with
    | [], _ =>
      rfl
    | [a], _ =>
      have hni : ¬(2 ≤ ([a] : List ℚ).length) := by simp
      rw [cpiPrevChange, cpiPrev, if_neg hni]
      by_cases ha : a = 0
      · have hb : pyTruthy (cpiCurrent [a]) = false := by
          show decide (a ≠ 0) = false
          exact decide_eq_false (not_not.mpr ha)
        rw [hb]
        rfl
      · have hb : pyTruthy (cpiCurrent [a]) = true := by
          show decide (a ≠ 0) = true
          exact decide_eq_true ha
        rw [hb]
        simp only [Bool.and_self, if_pos]
        rw [cpiCurrent]
        simp only [List.getLast?_singleton, Option.getD_some, sub_self]
        exact pyRound_zero 1
    | a :: b :: t, h =>
      rw [List.length_cons, List.length_cons] at h
      omega
  · intro v c hc
    rw [ratesCurrentField, ratesCurrent, hc]
    rfl
  · exact pyRound_zero 2
  · constructor
    · with_unfolding_all rfl
    · norm_num

set_option maxRecDepth 100000 in
/-- Claim C3 counterexample: a negative prior-year value is NOT skipped: on
[(2020-01-01, -100), (2021-01-01, -110)] the code emits ("2021-01", 10.0)
although the prior value -100 is negative (only an exactly-zero prior value
is guarded). -/
theorem claim_C3_counterexample :
    calc_yoy_from_index [⟨2020, 1, 1⟩, ⟨2021, 1, 1⟩] [-100, -110]
      = .ok ([(2021, 1)], [10]) ∧ ((-100 : ℚ) < 0) := by
  constructor
  · with_unfolding_all rfl
  · norm_num

/-- The successful year-minus-one replacement always yields the same
month/day with the year decremented. -/
theorem replaceYearMinus1_eq_some {d pd : Date}
    (h : replaceYearMinus1 d = some pd) :
    pd = ⟨d.year - 1, d.month, d.day⟩ := by
  rw [replaceYearMinus1] at h
  split at h
  · injection h with h
    exact h.symm
  · exact absurd h (by simp)

/-- Whether an index contributes an output pair: its one-year-earlier date is
a key of the dict and the value there is nonzero (line 74 membership test and
line 76 guard).  A present prior with value exactly zero is dropped; any
nonzero prior — negative included — is kept. -/
def yoyKept (dv : List (Date × ℚ)) (p : Date × ℚ) : Bool :=
  match dictLookup dv ⟨p.1.year - 1, p.1.month, p.1.day⟩ with
  | some pv => decide (pv ≠ 0)
  | none => false

/-- Modelled from the amended claim: the output of YoY derivation keeps
exactly the yoyKept indices, emitting their (year, month) labels and rounded
percentages. -/
def specYoyZeroSkip (dates : List Date) (values : List ℚ) :
    List (ℕ × ℕ) × List ℚ :=
  let dv := dates.zip values
  ((dv.filter (yoyKept dv)).map (fun p => (p.1.year, p.1.month)),
   (dv.filter (yoyKept dv)).map (fun p =>
     pyRound ((p.2 - (dictLookup dv ⟨p.1.year - 1, p.1.month, p.1.day⟩).getD 0)
       / (dictLookup dv ⟨p.1.year - 1, p.1.month, p.1.day⟩).getD 0 * 100) 1))

/-- The YoY loop keeps exactly the indices with a present nonzero prior. -/
theorem calcYoyGo_eq_zeroSkip (dv : List (Date × ℚ)) :
    ∀ rest : List (Date × ℚ),
      (∀ p ∈ rest, (replaceYearMinus1 p.1).isSome = true) →
      calcYoyGo dv rest
        = .ok ((rest.filter (yoyKept dv)).map (fun p => (p.1.year, p.1.month)),
               (rest.filter (yoyKept dv)).map (fun p =>
                 pyRound ((p.2
                     - (dictLookup dv ⟨p.1.year - 1, p.1.month, p.1.day⟩).getD 0)
                   / (dictLookup dv ⟨p.1.year - 1, p.1.month, p.1.day⟩).getD 0
                   * 100) 1)) := by
  intro rest
  induction rest with
  | nil => intro _; rfl
  | cons p rest ih =>
    intro hv
    obtain ⟨d, v⟩ := p
    have hd := hv (d, v) (List.mem_cons_self _ _)
    have hrest := fun q hq => hv q (List.mem_cons_of_mem _ hq)
    cases hrep : replaceYearMinus1 d with
    | none =>
      rw [hrep] at hd
      simp at hd
    | some pd =>
      have hpd := replaceYearMinus1_eq_some hrep
      subst hpd
      simp only [calcYoyGo, hrep]
      split
      · rename_i pv hl
        by_cases hpv : pv ≠ 0
        · rw [if_pos hpv, ih hrest]
          have hkept : yoyKept dv (d, v) = true := by
            simp only [yoyKept, hl]
            exact decide_eq_true hpv
          rw [List.filter_cons_of_pos hkept]
          simp only [List.map_cons, Except.map, hl, Option.getD_some]
        · rw [if_neg hpv]
          have hkept : yoyKept dv (d, v) = false := by
            simp only [yoyKept, hl]
            exact decide_eq_false hpv
          rw [List.filter_cons_of_neg (by rw [hkept]; exact Bool.false_ne_true)]
          exact ih hrest
      · rename_i hl
        have hkept : yoyKept dv (d, v) = false := by
          simp only [yoyKept, hl]
        rw [List.filter_cons_of_neg (by rw [hkept]; exact Bool.false_ne_true)]
        exact ih hrest

set_option maxRecDepth 100000 in
/-- Claim C3, amended: for every input on which the derivation is defined
(equal lengths, valid dates, no February 29), the output keeps exactly the
indices whose one-year-earlier observation is present with a nonzero value:
an index with a zero prior is skipped, while a negative prior is NOT skipped
— concretely, the negative two-point series still emits ("2021-01", 10.0). -/
theorem claim_C3_amended (dates : List Date) (values : List ℚ)
    (_hlen : dates.length = values.length)
    (hval : ∀ d ∈ dates, d.valid ∧ 2 ≤ d.year ∧ ¬(d.month = 2 ∧ d.day = 29)) :
    calc_yoy_from_index dates values = .ok (specYoyZeroSkip dates values) ∧
      calc_yoy_from_index [⟨2020, 1, 1⟩, ⟨2021, 1, 1⟩] [-100, -110]
        = .ok ([(2021, 1)], [10]) := by
  constructor
  · rw [calc_yoy_from_index, specYoyZeroSkip]
    apply calcYoyGo_eq_zeroSkip
    intro p hp
    obtain ⟨h1, h2, h3⟩ := hval p.1 (List.of_mem_zip hp).1
    rw [replaceYearMinus1_isSome h1 h2 h3]
    rfl
  · with_unfolding_all rfl

set_option maxRecDepth 100000 in
/-- Witness for the amended claim C3 at the concrete negative two-point
input. -/
theorem claim_C3_amended_witness :
    calc_yoy_from_index [⟨2020, 1, 1⟩, ⟨2021, 1, 1⟩] [-100, -110]
      = .ok (specYoyZeroSkip [⟨2020, 1, 1⟩, ⟨2021, 1, 1⟩] [-100, -110]) :=
  (claim_C3_amended [⟨2020, 1, 1⟩, ⟨2021, 1, 1⟩] [-100, -110] rfl (by decide)).1


/-- The YoY loop returns normally whenever every date admits the
year-minus-one replacement. -/
theorem calcYoyGo_ok (dv : List (Date × ℚ)) :
    ∀ rest : List (Date × ℚ), (∀ p ∈ rest, (replaceYearMinus1 p.1).isSome = true) →
      ∃ r, calcYoyGo dv rest = .ok r := by
  intro rest
  induction rest with
  | nil => exact fun _ => ⟨([], []), rfl⟩
  | cons p rest ih =>
    intro hv
    obtain ⟨d, v⟩ := p
    have hd := hv (d, v) (List.mem_cons_self _ _)
    obtain ⟨r, hr⟩ := ih (fun q hq => hv q (List.mem_cons_of_mem _ hq))
    cases hrep : replaceYearMinus1 d with
    | none =>
      rw [hrep] at hd
      simp at hd
    | some pd =>
      simp only [calcYoyGo, hrep]
      split
      · rename_i pv heq
        by_cases hpv : pv ≠ 0
        · rw [if_pos hpv, hr]
          exact ⟨_, rfl⟩
        · rw [if_neg hpv]
          exact ⟨r, hr⟩
      · exact ⟨r, hr⟩

/-- Claim C4 counterexample: the derivation is not total: on the single
valid day-level date 2020-02-29 the year-replacement raises ValueError
(2019-02-29 does not exist), instead of silently excluding the index. -/
theorem claim_C4_counterexample :
    calc_yoy_from_index [⟨2020, 2, 29⟩] [100]
      = .error "ValueError: day is out of range for month" := by
  with_unfolding_all rfl

/-- Claim C4, amended: the derivation returns normally on every equal-length
input whose dates are valid calendar dates with year at least 2 and none of
which is a February 29; a February 29 date whose preceding year is not leap
raises instead. -/
theorem claim_C4_amended (dates : List Date) (values : List ℚ)
    (_hlen : dates.length = values.length)
    (hval : ∀ d ∈ dates, d.valid ∧ 2 ≤ d.year ∧ ¬(d.month = 2 ∧ d.day = 29)) :
    ∃ r, calc_yoy_from_index dates values = .ok r := by
  apply calcYoyGo_ok
  intro p hp
  obtain ⟨h1, h2, h3⟩ := hval p.1 (List.of_mem_zip hp).1
  rw [replaceYearMinus1_isSome h1 h2 h3]
  rfl

/-- Witness for the amended claim C4 at a concrete one-point input. -/
theorem claim_C4_amended_witness :
    ∃ r, calc_yoy_from_index [⟨2020, 1, 1⟩] [100] = .ok r :=
  claim_C4_amended [⟨2020, 1, 1⟩] [100] rfl (by decide)

set_option maxRecDepth 100000 in
/-- Claim C1 counterexample: on the ascending valid day-level dates
2019-03-01, 2020-02-29 (equal-length values), the claim prescribes the
output ([], []) — no index has its one-year-earlier calendar date in the
input — but calc_yoy_from_index raises ValueError at the February 29 date
instead of returning. -/
theorem claim_C1_counterexample :
    calc_yoy_from_index [⟨2019, 3, 1⟩, ⟨2020, 2, 29⟩] [100, 110]
        = .error "ValueError: day is out of range for month" ∧
      specYoy [⟨2019, 3, 1⟩, ⟨2020, 2, 29⟩] [100, 110] = ([], []) ∧
      dateKey ⟨2019, 3, 1⟩ < dateKey ⟨2020, 2, 29⟩ := by
  refine ⟨?_, ?_, by norm_num [dateKey]⟩
  · with_unfolding_all rfl
  · with_unfolding_all rfl

set_option maxRecDepth 100000 in
/-- Claim C1, amended: on every pair of equal-length sequences whose dates
are strictly ascending valid day-level dates, none being a February 29 (and
years at least 2), calc_yoy_from_index emits exactly the spec value: for
precisely the indices whose one-year-earlier calendar date occurs in the
input with a nonzero value, the (year, month) label with
round(100 * (v - prior) / prior, 1); and on the concrete monthly index
[(2020-01-01, 100), (2021-01-01, 110)] it returns exactly
[("2021-01", 10.0)]. -/
theorem claim_C1_amended (dates : List Date) (values : List ℚ)
    (_hlen : dates.length = values.length)
    (hasc : dates.Pairwise (fun a b => dateKey a < dateKey b))
    (hval : ∀ d ∈ dates, d.valid ∧ 2 ≤ d.year ∧ ¬(d.month = 2 ∧ d.day = 29)) :
    calc_yoy_from_index dates values = .ok (specYoy dates values) ∧
      calc_yoy_from_index [⟨2020, 1, 1⟩, ⟨2021, 1, 1⟩] [100, 110]
        = .ok ([(2021, 1)], [10]) := by
  constructor
  · apply calc_yoy_eq_spec
    · exact hasc.imp (fun h => fun he => absurd (he ▸ h) (lt_irrefl _))
    · intro d hd
      obtain ⟨h1, h2, h3⟩ := hval d hd
      rw [replaceYearMinus1_isSome h1 h2 h3]
      rfl
  · with_unfolding_all rfl

set_option maxRecDepth 100000 in
/-- Witness for the amended claim C1 at the spec scenario input. -/
theorem claim_C1_amended_witness :
    calc_yoy_from_index [⟨2020, 1, 1⟩, ⟨2021, 1, 1⟩] [100, 110]
      = .ok (specYoy [⟨2020, 1, 1⟩, ⟨2021, 1, 1⟩] [100, 110]) :=
  (claim_C1_amended [⟨2020, 1, 1⟩, ⟨2021, 1, 1⟩] [100, 110] rfl
    (by decide) (by decide)).1

/-- Claim C2 counterexample: in the fetch_rates aligner the emitted value is
NOT the most recent observation: for a mapping holding the single observation
1/8 = 0.125, the aligned value at its own date is round(0.125, 2) = 0.12,
not 0.125. -/
theorem claim_C2_counterexample :
    ratesFillLoop [((0 : ℕ), (1 : ℚ)/8)] 0 [0] = [3/25] ∧
      mostRecentAtOrBefore [((0 : ℕ), (1 : ℚ)/8)] 0 0 = 1/8 ∧
      ((3 : ℚ)/25 ≠ 1/8) := by
  refine ⟨?_, ?_, by norm_num⟩
  · with_unfolding_all rfl
  · with_unfolding_all rfl

/-- Claim C2, amended: the aligner produces the sorted set-union axis of all
dates; every per-name output has exactly the axis length, and the value at
each axis position is the name's most recent observation at or before that
axis date (or the default if none precedes it) — carried unchanged in the
pmi/unemployment form, rounded to 2 decimals in the fetch_rates form (the
value there is the most recent observation of the rounded mapping). -/
theorem claim_C2_amended {δ : Type} [LinearOrder δ] [DecidableEq δ]
    (series : List (String × List (δ × ℚ))) (default : ℚ) :
    (alignAll series default).1.Sorted (· < ·) ∧
    (∀ d : δ, d ∈ (alignAll series default).1 ↔
      ∃ p ∈ series, d ∈ p.2.map Prod.fst) ∧
    (∀ q ∈ (alignAll series default).2,
      q.2.length = (alignAll series default).1.length) ∧
    ((alignAll series default).2 = series.map (fun p =>
      (p.1, (alignAll series default).1.map (mostRecentAtOrBefore p.2 default)))) ∧
    ((alignAllRates series default).2 = series.map (fun p =>
      (p.1, (alignAll series default).1.map
        (mostRecentAtOrBefore (p.2.map (fun q => (q.1, pyRound q.2 2))) default)))) := by
  have hax : (alignAll series default).1
      = sortedUnion (series.map (fun p => p.2.map Prod.fst)) := rfl
  have hsort : (alignAll series default).1.Sorted (· < ·) := by
    rw [hax]
    exact sortedUnion_sorted _
  have hmem : ∀ d : δ, d ∈ (alignAll series default).1 ↔
      ∃ p ∈ series, d ∈ p.2.map Prod.fst := by
    intro d
    rw [hax, mem_sortedUnion]
    constructor
    · rintro ⟨l, hl, hdl⟩
      rw [List.mem_map] at hl
      obtain ⟨p, hp, hpl⟩ := hl
      exact ⟨p, hp, hpl ▸ hdl⟩
    · rintro ⟨p, hp, hdp⟩
      exact ⟨p.2.map Prod.fst, List.mem_map.mpr ⟨p, hp, rfl⟩, hdp⟩
  have hfill : ∀ p ∈ series, fillLoop p.2 default (alignAll series default).1
      = (alignAll series default).1.map (mostRecentAtOrBefore p.2 default) := by
    intro p hp
    apply fillLoop_eq_map_mostRecent p.2 default _ hsort
    intro k hk
    exact (hmem k).mpr ⟨p, hp, hk⟩
  refine ⟨hsort, hmem, ?_, ?_, ?_⟩
  · intro q hq
    have hq2 : (alignAll series default).2
        = series.map (fun p => (p.1, fillLoop p.2 default (alignAll series default).1)) := rfl
    rw [hq2, List.mem_map] at hq
    obtain ⟨p, _, hpq⟩ := hq
    rw [← hpq]
    exact fillLoop_length _ _ _
  · show series.map (fun p => (p.1, fillLoop p.2 default (alignAll series default).1)) = _
    apply List.map_congr_left
    intro p hp
    rw [hfill p hp]
  · show series.map (fun p => (p.1, ratesFillLoop p.2 default (alignAll series default).1)) = _
    apply List.map_congr_left
    intro p hp
    have h1 := ratesFillLoop_eq_fillLoop p.2 default (alignAll series default).1
    rw [h1]
    have h2 : fillLoop (p.2.map (fun q => (q.1, pyRound q.2 2))) default
        (alignAll series default).1
        = (alignAll series default).1.map
            (mostRecentAtOrBefore (p.2.map (fun q => (q.1, pyRound q.2 2))) default) := by
      apply fillLoop_eq_map_mostRecent _ default _ hsort
      intro k hk
      rw [List.mem_map] at hk
      obtain ⟨q, hq, hqk⟩ := hk
      rw [List.mem_map] at hq
      obtain ⟨w, hw, hwq⟩ := hq
      apply (hmem k).mpr
      refine ⟨p, hp, List.mem_map.mpr ⟨w, hw, ?_⟩⟩
      rw [← hqk, ← hwq]
    rw [h2]
